import Mathlib

/-!
Verification development for the Reveaal timed-automata engine, focused on the
clock-reduction pre-processor (`src/transition_systems/clock_reduction/`), the
compiled-component leaf (`src/transition_systems/compiled_component.rs`), the
declarations table (`src/model_objects/declarations.rs`) and the composed-node
interface (`src/transition_systems/common.rs`, `src/TransitionSystems/composition.rs`).

Rust collections are embedded as follows: `Vec<T>` is `List T`; a `HashSet<T>` is a
duplicate-free `List T` (built with `List.dedup`), its iteration order modelled by the
list order; a `HashMap<K,V>` is an association list `List (K × V)` with insert-overwrite
semantics; `usize`/`ClockIndex` is `Nat`; `i32` is `Int` (with explicit `% 2^32`
wrapping where the source casts `as u32`). Fallible code (`Option::unwrap`,
`Result`) is embedded with `Option`.
-/

set_option autoImplicit false

/-- `ClockIndex` (edbm): a clock index; index `0` is the reference clock. -/
abbrev ClockIndex := Nat

/-- `CompiledUpdate` (`transition_systems/compiled_update.rs`, declared in `mod.rs`):
a clock reset to an `i32` constant. -/
structure CompiledUpdate where
  clock_index : ClockIndex
  value : Int
deriving DecidableEq, Repr

/-- edbm `Inequality`: a strictness flag (`LS` vs `LE`) together with an `i32` bound,
as consumed through `ineq()`, `bound()` and `negated_bound()` in `clock_removal.rs`. -/
structure Inequality where
  strict : Bool
  bound : Int
deriving DecidableEq, Repr

/-- Negating `x - y ≤ b` gives `y - x < -b` (and dually): the flag flips and the bound
is negated.  Only its `bound` is read by `rebuild_conjunction`. -/
def Inequality.negated_bound (x : Inequality) : Inequality :=
  ⟨!x.strict, -x.bound⟩

/-- edbm `Constraint`: the tight constraint `x_i - x_j ⟨ineq⟩ bound`. -/
structure Constraint where
  i : ClockIndex
  j : ClockIndex
  ineq : Inequality
deriving DecidableEq, Repr

/-- An edbm federation, kept in the minimal-constraint form that the engine reads back
through `minimal_constraints()`: a disjunction of conjunctions of tight constraints,
plus the DBM dimension.  The zone library itself is out of scope of the spec; every
operation the engine performs on federations in the verified code works on this form. -/
structure Federation where
  dim : Nat
  disjunction : List (List Constraint)
deriving DecidableEq, Repr

/-- `OwnedFederation::universe(dim)`: no constraints, one empty conjunction. -/
def Federation.universe (dim : Nat) : Federation :=
  ⟨dim, [[]]⟩

/-- `Declarations` (`model_objects/declarations.rs`): name → integer and name → clock
index maps, embedded as association lists. -/
structure Declarations where
  ints : List (String × Int)
  clocks : List (String × ClockIndex)
deriving DecidableEq, Repr

/-- `Vec::partition_point(pred)` on a list that is partitioned by `pred` (all `true`
elements before all `false` ones, e.g. a sorted list with a monotone predicate):
the index of the first element where `pred` fails.  The Rust implementation computes
this by binary search; on partitioned input that equals the length of the maximal
`true` prefix, which is what we take as the definition. -/
def partition_point (l : List ClockIndex) (pred : ClockIndex → Bool) : Nat :=
  (l.takeWhile pred).length

/-- `Declarations::remove_clocks` (`declarations.rs:48-61`): drop every clock bound to a
removed index and shift each surviving index down by the number of removed indices
below it (`partition_point(|clock| clock < old_clock)` on the sorted removal list). -/
def Declarations.remove_clocks (d : Declarations) (clocks_to_be_removed : List ClockIndex) :
    Declarations :=
  { d with
    clocks :=
      (d.clocks.filter (fun nc => !clocks_to_be_removed.contains nc.2)).map
        (fun nc =>
          (nc.1, nc.2 - partition_point clocks_to_be_removed (fun clock => clock < nc.2))) }

/-- Modelled from the spec: `Declarations::replace_clocks(map old→new)` "rewrites
indices in place" (§3 Data model).  The function is called by
`CompiledComponent::replace_clocks` but its body is not among the provided sources. -/
def Declarations.replace_clocks (d : Declarations) (clocks : List (ClockIndex × ClockIndex)) :
    Declarations :=
  { d with
    clocks := d.clocks.map (fun nc =>
      match clocks.lookup nc.2 with
      | some new => (nc.1, new)
      | none => nc) }

/-- `ClockAnalysisNode` (`clock_analysis_graph.rs:17-21`): the clock indices mentioned
by the location's invariant (its minimal constraints' `i` and `j` fields) plus the
location id. -/
structure ClockAnalysisNode where
  invariant_dependencies : List ClockIndex
  id : String
deriving DecidableEq, Repr

/-- `ClockAnalysisEdge` (`clock_analysis_graph.rs:23-30`). -/
structure ClockAnalysisEdge where
  from_id : String
  to_id : String
  guard_dependencies : List ClockIndex
  updates : List CompiledUpdate
  edge_type : String
deriving DecidableEq, Repr

/-- `ClockAnalysisGraph` (`clock_analysis_graph.rs:10-15`).  The `nodes` hash map is
embedded as the list of its values (keys are the `id` fields). -/
structure ClockAnalysisGraph where
  nodes : List ClockAnalysisNode
  edges : List ClockAnalysisEdge
  dim : ClockIndex
deriving DecidableEq, Repr

/-- `find_used_clocks` (`clock_analysis_graph.rs:71-91`): every clock mentioned in an
edge guard or a node invariant, with the reference clock 0 removed at the end. -/
def ClockAnalysisGraph.find_used_clocks (g : ClockAnalysisGraph) : List ClockIndex :=
  ((g.edges.flatMap (fun e => e.guard_dependencies) ++
      g.nodes.flatMap (fun n => n.invariant_dependencies)).dedup).filter (fun c => c != 0)

/-- The `as u32` cast of an `i32` reset value (`clock_analysis_graph.rs:117`):
two's-complement wrap, i.e. the value mod `2^32`. -/
def u32_of_i32 (v : Int) : Nat :=
  (v % (2 : Int) ^ 32).toNat

/-- `u32::MAX as usize`, the starting `group_offset` of
`find_equivalent_clock_groups`. -/
def u32MaxUsize : Nat := 2 ^ 32 - 1

/-- The final content of `locally_equivalent_clock_groups` at key `c` after the insert
loop `for update in edge.updates { map.insert(update.clock_index, update.value as u32) }`:
the last update of clock `c` wins. -/
def lastResetU32 (updates : List CompiledUpdate) (c : ClockIndex) : Option Nat :=
  ((updates.filter (fun u => u.clock_index == c)).getLast?).map
    (fun u => u32_of_i32 u.value)

/-- The raw (un-cast) reset constant clock `c` receives from `updates`
(`None` when the clock is not reset). -/
def lastReset (updates : List CompiledUpdate) (c : ClockIndex) : Option Int :=
  ((updates.filter (fun u => u.clock_index == c)).getLast?).map (fun u => u.value)

/-- The key under which clock `c` of the group with index `old_group_index` is filed
into `new_groups` (`clock_analysis_graph.rs:131-147`): clocks reset on the edge go to
`group_offset + (value as u32 as usize)` where `group_offset = u32::MAX + old_group_index *
(2 * u32::MAX)`; clocks not reset keep the key `old_group_index`. -/
def clockKey (updates : List CompiledUpdate) (old_group_index : Nat) (c : ClockIndex) : Nat :=
  match lastResetU32 updates c with
  | some group_id => (u32MaxUsize + old_group_index * (2 * u32MaxUsize)) + group_id
  | none => old_group_index

/-- The `(key, clock)` pairs produced by the enumeration loop of
`find_equivalent_clock_groups` for the groups starting at index `start`. -/
def groupPairs (updates : List CompiledUpdate) :
    Nat → List (List ClockIndex) → List (Nat × ClockIndex)
  | _, [] => []
  | start, g :: rest =>
    g.map (fun c => (clockKey updates start c, c)) ++ groupPairs updates (start + 1) rest

/-- One iteration of the edge loop of `find_equivalent_clock_groups`
(`clock_analysis_graph.rs:108-155`): re-partition the groups by the key each clock
receives on this edge (gathering the `new_groups` hash map, whose values are sets),
then keep only groups with more than one member.  The hash map's iteration order is
unspecified in Rust; we list the groups in first-key-appearance order. -/
def refineStep (updates : List CompiledUpdate) (groups : List (List ClockIndex)) :
    List (List ClockIndex) :=
  let pairs := groupPairs updates 0 groups
  let keys := (pairs.map Prod.fst).dedup
  (keys.map (fun k => ((pairs.filter (fun p => p.1 == k)).map Prod.snd).dedup)).filter
    (fun group => decide (1 < group.length))

/-- `find_equivalent_clock_groups` (`clock_analysis_graph.rs:93-157`): starting from a
single group of all used clocks, refine by every edge; fewer than two used clocks or
no edges yields no groups. -/
def ClockAnalysisGraph.find_equivalent_clock_groups (g : ClockAnalysisGraph)
    (used_clocks : List ClockIndex) : List (List ClockIndex) :=
  if used_clocks.length < 2 ∨ g.edges = [] then []
  else g.edges.foldl (fun groups edge => refineStep edge.updates groups) [used_clocks]

/-- `find_clock_redundancies` (`clock_analysis_graph.rs:56-69`): the unused clocks
(every index in `1..dim` mentioned in no guard and no invariant, sorted ascending)
together with the equivalence groups of the used clocks. -/
def ClockAnalysisGraph.find_clock_redundancies (g : ClockAnalysisGraph) :
    List ClockIndex × List (List ClockIndex) :=
  let used_clocks := g.find_used_clocks
  let unused_clocks :=
    List.insertionSort (· ≤ ·)
      ((List.range' 1 (g.dim - 1)).filter (fun clock => !used_clocks.contains clock))
  (unused_clocks, g.find_equivalent_clock_groups used_clocks)

/-- `Vec::swap_remove(i)`: remove the element at `i`, replacing it by the last element. -/
def swap_remove {α : Type} (l : List α) (i : Nat) : List α :=
  match l.getLast? with
  | none => l
  | some last => if i + 1 == l.length then l.dropLast else (l.dropLast).set i last

/-- `create_constraint` (`clock_removal.rs:91-103`): shift each side one down when it
lies above the removed clock. -/
def create_constraint (i j : ClockIndex) (inequality : Inequality) (clock_index : ClockIndex) :
    Constraint :=
  ⟨if clock_index < i then i - 1 else i,
   if clock_index < j then j - 1 else j,
   inequality⟩

/-- `remove_or_replace_constraint` (`clock_removal.rs:105-151`): drop, redirect to the
replacing clock, or merely re-index a constraint, depending on whether either side is
the removed clock. -/
def remove_or_replace_constraint (constraint : Constraint) (remove_clock : ClockIndex)
    (replacing_clock : Option ClockIndex) : Option Constraint :=
  match replacing_clock with
  | none =>
    if constraint.i = remove_clock ∨ constraint.j = remove_clock then none
    else some (create_constraint constraint.i constraint.j constraint.ineq remove_clock)
  | some new_clock =>
    if constraint.i = remove_clock then
      if constraint.j = new_clock then none
      else some (create_constraint new_clock constraint.j constraint.ineq remove_clock)
    else if constraint.j = remove_clock then
      if constraint.i = new_clock then none
      else some (create_constraint constraint.i new_clock constraint.ineq remove_clock)
    else some (create_constraint constraint.i constraint.j constraint.ineq remove_clock)

/-- The body of the "only add the tightest constraints" loop of `rebuild_conjunction`
(`clock_removal.rs:44-81`), processing one candidate constraint against the
accumulator. -/
def tightest_push (new_constraints : List Constraint) (constraint : Constraint) :
    List Constraint :=
  match new_constraints.findIdx? (fun nc => nc.i == constraint.i && nc.j == constraint.j) with
  | none => new_constraints ++ [constraint]
  | some constraint_index =>
    match new_constraints.get? constraint_index with
    | none => new_constraints
    | some new_constraint =>
      if new_constraint.ineq.bound < constraint.ineq.bound then
        match new_constraints.findIdx?
            (fun nc => nc.i == constraint.j && nc.j == constraint.i) with
        | none => swap_remove new_constraints constraint_index ++ [constraint]
        | some reverse_index =>
          match new_constraints.get? reverse_index with
          | none => new_constraints
          | some reverse_constraint =>
            if constraint.ineq.negated_bound.bound < reverse_constraint.ineq.negated_bound.bound
            then swap_remove new_constraints constraint_index ++ [constraint]
            else new_constraints
      else new_constraints

/-- `rebuild_conjunction` (`clock_removal.rs:32-88`): map every constraint through
`remove_or_replace_constraint`, keep the tightest per `(i,j)`, and drop the whole
conjunction when nothing remains. -/
def rebuild_conjunction (conjunction : List Constraint) (remove_clock : ClockIndex)
    (replacing_clock : Option ClockIndex) : Option (List Constraint) :=
  let new_constraints :=
    (conjunction.filterMap
        (fun constraint => remove_or_replace_constraint constraint remove_clock replacing_clock)).foldl
      tightest_push []
  if new_constraints.isEmpty then none else some new_constraints

/-- `remove_clock_from_federation` (`clock_removal.rs:4-30`): rebuild every conjunction
of the minimal-constraint form without the removed clock and shrink the dimension by
one.  (The source also computes an adjusted `_replacing_clock` that it never uses; the
unadjusted `replacing_clock` is what is passed on, as here.) -/
def remove_clock_from_federation (federation : Federation) (remove_clock : ClockIndex)
    (replacing_clock : Option ClockIndex) : Federation :=
  ⟨federation.dim - 1,
   federation.disjunction.filterMap
     (fun conjunction => rebuild_conjunction conjunction remove_clock replacing_clock)⟩

/-- Location type tags of the source components (`LocationType` in the model objects). -/
inductive LocType where
  | Initial
  | Normal
  | Universal
  | Inconsistent
deriving DecidableEq, Repr

/-- A leaf `LocationTree` node: id, optional invariant federation, and type tag. -/
structure Location where
  id : String
  invariant : Option Federation
  loc_type : LocType
deriving DecidableEq, Repr

/-- `Transition` (modern draft, `model_objects`): guard federation, compiled updates,
and the target location (tree). -/
structure Transition where
  guard_zone : Federation
  updates : List CompiledUpdate
  target_locations : Location
deriving DecidableEq, Repr

/-- `Transition::without_id(loc, dim)` as used by `CompiledComponent::next_transitions`
for universal/inconsistent locations.  Modelled from the spec: the universal location
"admits all", so the transition is unconstrained (universe guard), has no updates and
stays in place. -/
def Transition.without_id (locations : Location) (dim : Nat) : Transition :=
  ⟨Federation.universe dim, [], locations⟩

/-- `CompiledComponent` (`compiled_component.rs:31-40`): inputs, outputs, the location
map (embedded as the list of locations), per-location edge lists, initial location,
declarations (`comp_info`), and the DBM dimension. -/
structure CompiledComponent where
  inputs : List String
  outputs : List String
  locations : List Location
  location_edges : List (String × List (String × Transition))
  initial_location : Option Location
  declarations : Declarations
  dim : Nat
deriving DecidableEq, Repr

/-- `get_actions` (`compiled_component.rs:168-170`): union of inputs and outputs. -/
def CompiledComponent.get_actions (c : CompiledComponent) : List String :=
  (c.inputs ++ c.outputs).dedup

/-- `CompiledComponent::next_transitions` (`compiled_component.rs:136-158`): universal
locations loop on any action, inconsistent locations loop on inputs, otherwise the
stored edges for the location filtered by the action.  (The lookup of a known location
id never fails; a missing id yields the empty edge list here where the source would
panic.) -/
def CompiledComponent.next_transitions (c : CompiledComponent) (locations : Location)
    (action : String) : List Transition :=
  let is_input := c.inputs.contains action
  if locations.loc_type = LocType.Universal then [Transition.without_id locations c.dim]
  else if locations.loc_type = LocType.Inconsistent ∧ is_input then
    [Transition.without_id locations c.dim]
  else
    ((c.location_edges.lookup locations.id).getD []).filterMap
      (fun channel_transition =>
        if channel_transition.1 = action then some channel_transition.2 else none)

/-- `CompiledComponent::remove_clocks` (`compiled_component.rs:222-257`): compact the
declarations, strip each removed clock from every invariant and guard federation
(sequentially, one clock at a time, mirroring the source's per-clock loop), drop the
updates of removed clocks, and decrement the dimension by the number of removed
clocks.  Surviving update indices are left untouched, exactly as in the source. -/
def CompiledComponent.remove_clocks (c : CompiledComponent) (clocks : List ClockIndex) :
    CompiledComponent :=
  { c with
    declarations := c.declarations.remove_clocks clocks,
    locations := c.locations.map (fun loc =>
      { loc with
        invariant := clocks.foldl
          (fun inv clock => inv.map (fun f => remove_clock_from_federation f clock none))
          loc.invariant }),
    location_edges := c.location_edges.map (fun le =>
      (le.1, le.2.map (fun at_ =>
        (at_.1,
         { at_.2 with
           guard_zone := clocks.foldl
             (fun f clock => remove_clock_from_federation f clock none) at_.2.guard_zone,
           updates := at_.2.updates.filter
             (fun update => !clocks.contains update.clock_index) })))),
    dim := c.dim - clocks.length }

/-- `CompiledComponent::replace_clocks` (`compiled_component.rs:259-312`): rewrite the
declarations, redirect every federation constraint from each replaced clock to its
replacement (per-entry, mirroring the source's loop over the map), rewrite update
indices through the map, and decrement the dimension by the size of the map. -/
def CompiledComponent.replace_clocks (c : CompiledComponent)
    (clocks : List (ClockIndex × ClockIndex)) : CompiledComponent :=
  { c with
    declarations := c.declarations.replace_clocks clocks,
    locations := c.locations.map (fun loc =>
      { loc with
        invariant := clocks.foldl
          (fun inv cr => inv.map (fun f => remove_clock_from_federation f cr.1 (some cr.2)))
          loc.invariant }),
    location_edges := c.location_edges.map (fun le =>
      (le.1, le.2.map (fun at_ =>
        (at_.1,
         { at_.2 with
           guard_zone := clocks.foldl
             (fun f cr => remove_clock_from_federation f cr.1 (some cr.2)) at_.2.guard_zone,
           updates := at_.2.updates.map (fun update =>
             match clocks.lookup update.clock_index with
             | none => CompiledUpdate.mk update.clock_index update.value
             | some clock => CompiledUpdate.mk clock update.value) })))),
    dim := c.dim - clocks.length }

/-- The clock indices mentioned by a federation's minimal constraints, in the order
`find_edges_and_nodes` inserts them (`i` then `j`, per constraint, per conjunction). -/
def minimal_constraint_clocks (f : Federation) : List ClockIndex :=
  f.disjunction.flatMap (fun conjunction => conjunction.flatMap (fun c => [c.i, c.j]))

/-- `HashMap::insert` for the node map of the analysis graph: overwrite the node with
the same id, or append. -/
def insertNode (nodes : List ClockAnalysisNode) (node : ClockAnalysisNode) :
    List ClockAnalysisNode :=
  if nodes.any (fun n => n.id == node.id) then
    nodes.map (fun n => if n.id == node.id then node else n)
  else nodes ++ [node]

/-- `find_edges_and_nodes` (`clock_analysis_graph.rs:169-227`): worklist BFS from the
initial location.  Each popped location contributes a node carrying its invariant's
minimal-constraint clocks; every transition on every action contributes an edge, and
targets whose id is not yet a node are enqueued.  The loop terminates because only
unseen ids are enqueued; the embedding makes this explicit with a fuel argument that
the caller instantiates generously. -/
def find_edges_and_nodes (sys : CompiledComponent) :
    Nat → List Location → ClockAnalysisGraph → ClockAnalysisGraph
  | 0, _, g => g
  | _ + 1, [], g => g
  | fuel + 1, location :: rest, g =>
    let node : ClockAnalysisNode :=
      ⟨(location.invariant.map minimal_constraint_clocks).getD [], location.id⟩
    let nodes' := insertNode g.nodes node
    let pairs := sys.get_actions.flatMap (fun action =>
      (sys.next_transitions location action).map (fun transition => (action, transition)))
    let new_edges := pairs.map (fun p =>
      ClockAnalysisEdge.mk location.id p.2.target_locations.id
        (minimal_constraint_clocks p.2.guard_zone) p.2.updates p.1)
    find_edges_and_nodes sys fuel
      (rest ++ pairs.filterMap (fun p =>
        if nodes'.any (fun n => n.id == p.2.target_locations.id) then none
        else some p.2.target_locations))
      ⟨nodes', g.edges ++ new_edges, g.dim⟩

/-- Total number of stored edges of a compiled component. -/
def CompiledComponent.edge_count (sys : CompiledComponent) : Nat :=
  (sys.location_edges.map (fun le => le.2.length)).foldl (· + ·) 0

/-- A fuel bound sufficient for the worklist of `find_edges_and_nodes` to drain on the
concrete systems analysed below (each pop either ends the loop or processes one
location; only ids absent from the node map are ever enqueued). -/
def CompiledComponent.analysis_fuel (sys : CompiledComponent) : Nat :=
  (sys.locations.length + 1) * (1 + sys.edge_count) + 1

/-- `ClockAnalysisGraph::from_system` (`clock_analysis_graph.rs:41-46`): run the BFS
from the system's initial location (whose absence makes the source panic on `unwrap`,
embedded as `none`). -/
def ClockAnalysisGraph.from_system (system : CompiledComponent) : Option ClockAnalysisGraph :=
  system.initial_location.map (fun init =>
    find_edges_and_nodes system system.analysis_fuel [init] ⟨[], [], system.dim⟩)

/-- `ClockReductionInstruction` as consumed by `reduction.rs` (`RemoveClock` /
`ReplaceClock { clock_index, replacing_clock }`: `clock_index` is the clock being
rewritten, `replacing_clock` the one it is merged into). -/
inductive ClockReductionInstruction where
  | RemoveClock (clock_index : ClockIndex)
  | ReplaceClock (clock_index : ClockIndex) (replacing_clock : ClockIndex)
deriving DecidableEq, Repr

/-- `ClockReductionInstruction::get_clock_index`
(`clock_reduction_instruction.rs:23-28`): the `clock_index` field of either variant. -/
def ClockReductionInstruction.get_clock_index : ClockReductionInstruction → ClockIndex
  | ClockReductionInstruction.RemoveClock clock_index => clock_index
  | ClockReductionInstruction.ReplaceClock clock_index _ => clock_index

/-- Modelled from the spec: the draft of `find_redundant_clocks` that `reduction.rs`
consumes returns a `Vec<ClockReductionInstruction>`; its body is not among the provided
sources (`clock_analysis_graph.rs` in the sources returns the raw
`(unused, groups)` pair instead).  Per §4.6 of the spec, "All unused clocks are removed
together" and "The remaining groups are merged into one representative each (the
smallest index)". -/
def instructionsOfRedundancies (r : List ClockIndex × List (List ClockIndex)) :
    List ClockReductionInstruction :=
  r.1.map ClockReductionInstruction.RemoveClock ++
    r.2.flatMap (fun group =>
      match List.insertionSort (· ≤ ·) group with
      | [] => []
      | rep :: others => others.map (fun c => ClockReductionInstruction.ReplaceClock c rep))

/-- `HashMap::insert` on an association list: overwrite the binding of an existing key,
otherwise append. -/
def insertAssoc (l : List (ClockIndex × ClockIndex)) (k v : ClockIndex) :
    List (ClockIndex × ClockIndex) :=
  if l.any (fun p => p.1 == k) then l.map (fun p => if p.1 == k then (k, v) else p)
  else l ++ [(k, v)]

/-- `extract_remove_and_replace_from_instruction` (`reduction.rs:88-107`): split the
instruction list into the removal vector and the replacement map. -/
def extract_remove_and_replace_from_instruction
    (instructions : List ClockReductionInstruction) :
    List ClockIndex × List (ClockIndex × ClockIndex) :=
  instructions.foldl
    (fun acc instruction =>
      match instruction with
      | ClockReductionInstruction.RemoveClock clock_index => (acc.1 ++ [clock_index], acc.2)
      | ClockReductionInstruction.ReplaceClock clock_index replacing_clock =>
        (acc.1, insertAssoc acc.2 clock_index replacing_clock))
    ([], [])

/-- The capability interface `reduction.rs` needs from a `TransitionSystemPtr`:
redundancy analysis (instructions), dimension, and the two structural rewrites.
`find_redundant_clocks` is `Option`-valued because the analysis unwraps the initial
location. -/
structure SystemOps (S : Type) where
  find_redundant_clocks : S → Option (List ClockReductionInstruction)
  get_dim : S → Nat
  remove_clocks : List ClockIndex → S → S
  replace_clocks : List (ClockIndex × ClockIndex) → S → S

/-- The instruction list retained by `clock_reduce_single` after
`clocks.retain(|ins| ins.get_clock_index() != quotient_clock.unwrap_or_default())`
(`reduction.rs:72-73`). -/
def clockReduceSingleRetained {S : Type} (ops : SystemOps S) (sys : S)
    (quotient_clock : Option ClockIndex) : Option (List ClockReductionInstruction) :=
  (ops.find_redundant_clocks sys).map (fun clocks =>
    clocks.filter (fun ins => ins.get_clock_index != quotient_clock.getD 0))

/-- `clock_reduce_single` (`reduction.rs:67-85`): analyse, drop instructions touching
the quotient clock, shrink the dimension by the number of retained instructions, then
apply removals and replacements (skipping empty batches).  Returns the rewritten
system together with the new dimension. -/
def clock_reduce_single {S : Type} (ops : SystemOps S) (sys : S) (dim : Nat)
    (quotient_clock : Option ClockIndex) : Option (S × Nat) := do
  let clocks ← clockReduceSingleRetained ops sys quotient_clock
  let dim := dim - clocks.length
  let rr := extract_remove_and_replace_from_instruction clocks
  let sys := if rr.1.isEmpty then sys else ops.remove_clocks rr.1 sys
  let sys := if rr.2.isEmpty then sys else ops.replace_clocks rr.2 sys
  some (sys, dim)

/-- `filter_redundant_clocks` (`reduction.rs:109-145`): keep only the instructions that
occur on both sides, lie within the owning side's index range (`≤ split_index` left,
`> split_index` right) and do not touch the quotient clock. -/
def filter_redundant_clocks (lhs rhs : List ClockReductionInstruction)
    (quotient_clock : Option ClockIndex) (split_index : ClockIndex) :
    List ClockReductionInstruction × List ClockReductionInstruction :=
  let quotient := quotient_clock.getD 0
  (((lhs.filter (fun ins => rhs.contains ins)).filter
        (fun ins => ins.get_clock_index ≤ split_index)).filter
      (fun ins => ins.get_clock_index != quotient),
   ((rhs.filter (fun ins => lhs.contains ins)).filter
        (fun ins => split_index < ins.get_clock_index)).filter
      (fun ins => ins.get_clock_index != quotient))

/-- `clock_reduce` (`reduction.rs:17-57`): a zero dimension returns immediately; a
missing right operand delegates to `clock_reduce_single`; otherwise both sides are
analysed, filtered against each other around `lhs.get_dim()` as the split index, the
dimension shrinks by the total count of surviving instructions, and each side's
removals and replacements are applied to it (skipping empty batches).  The rewritten
systems and dimension are returned (the source mutates them in place). -/
def clock_reduce {S : Type} (ops : SystemOps S) (lhs : S) (rhs : Option S) (dim : Nat)
    (quotient_clock : Option ClockIndex) : Option ((S × Option S) × Nat) :=
  if dim = 0 then some ((lhs, rhs), dim)
  else
    match rhs with
    | none =>
      (clock_reduce_single ops lhs dim quotient_clock).map (fun p => ((p.1, none), p.2))
    | some rhs => do
      let l_found ← ops.find_redundant_clocks lhs
      let r_found ← ops.find_redundant_clocks rhs
      let lr := filter_redundant_clocks l_found r_found quotient_clock (ops.get_dim lhs)
      let dim := dim - (lr.1.length + lr.2.length)
      let l_rr := extract_remove_and_replace_from_instruction lr.1
      let r_rr := extract_remove_and_replace_from_instruction lr.2
      let lhs := if l_rr.1.isEmpty then lhs else ops.remove_clocks l_rr.1 lhs
      let lhs := if l_rr.2.isEmpty then lhs else ops.replace_clocks l_rr.2 lhs
      let rhs := if r_rr.1.isEmpty then rhs else ops.remove_clocks r_rr.1 rhs
      let rhs := if r_rr.2.isEmpty then rhs else ops.replace_clocks r_rr.2 rhs
      some ((lhs, some rhs), dim)

/-- The `SystemOps` instance for a compiled-component leaf: analysis through
`ClockAnalysisGraph::from_system` followed by the instruction conversion, and the
leaf rewrites of `compiled_component.rs`. -/
def ccOps : SystemOps CompiledComponent where
  find_redundant_clocks := fun c =>
    (ClockAnalysisGraph.from_system c).map
      (fun g => instructionsOfRedundancies g.find_clock_redundancies)
  get_dim := fun c => c.dim
  remove_clocks := fun clocks c => c.remove_clocks clocks
  replace_clocks := fun clocks c => c.replace_clocks clocks

/-- Modelled from the spec: whether "time can pass and remain in the invariant"
(§4.5).  A location with no invariant admits unbounded delay; otherwise some conjunct
must impose no upper bound (no minimal constraint `x_i - x_0 ≤ b` with `i ≠ 0`). -/
def delay_ok (invariant : Option Federation) : Bool :=
  match invariant with
  | none => true
  | some f => f.disjunction.any (fun conjunction =>
      conjunction.all (fun c => !(c.j == 0 && c.i != 0)))

/-- Modelled from the spec: the reachable locations explored by the consistency
fixpoint of §4.5 ("explicit work-queues keyed by location ID plus a visited-set"). -/
def reachable_locations (sys : CompiledComponent) :
    Nat → List Location → List Location → List Location
  | 0, _, seen => seen
  | _ + 1, [], seen => seen
  | fuel + 1, loc :: rest, seen =>
    if seen.any (fun l => l.id == loc.id) then reachable_locations sys fuel rest seen
    else
      reachable_locations sys fuel
        (rest ++ sys.get_actions.flatMap (fun action =>
          (sys.next_transitions loc action).map (fun t => t.target_locations)))
        (seen ++ [loc])

/-- Modelled from the spec: `local_consistency::is_least_consistent` for a leaf
(§4.5): every reachable location either lets time pass within its invariant or has an
output transition with a non-empty guard; a system without an initial state is
inconsistent.  The implementation is not among the provided sources. -/
def CompiledComponent.is_least_consistent (sys : CompiledComponent) : Bool :=
  match sys.initial_location with
  | none => false
  | some init =>
    (reachable_locations sys sys.analysis_fuel [init] []).all (fun loc =>
      delay_ok loc.invariant ||
        sys.outputs.any (fun action =>
          (sys.next_transitions loc action).any
            (fun t => !t.guard_zone.disjunction.isEmpty)))

/-- `get_initial_state` for composed nodes (`transition_systems/common.rs:117-127`),
with the zone library abstract: take the composed initial location, apply the
invariants to `init(dim)`, and fail on emptiness.  `CompiledComponent::get_initial_state`
(`compiled_component.rs:196-200`) delegates to `State::from_location`, which per the
spec computes the same `init(D) ∩ invariant` zone. -/
def get_initial_state {L Z : Type} (initial_location : Option L) (dim : Nat)
    (init : Nat → Z) (apply_invariants : L → Z → Z) (is_empty : Z → Bool) :
    Option (L × Z) :=
  match initial_location with
  | none => none
  | some init_loc =>
    let zone := apply_invariants init_loc (init dim)
    if is_empty zone then none else some (init_loc, zone)

/-- `Transition::combinations` as called by the old-draft
`Composition::next_transitions` (`TransitionSystems/composition.rs:72`).  The function
body lives in `ModelObjects/component.rs`, which is not among the provided sources;
modelled from the spec (§4.2): "the set of pairwise combinations of `Tl × Tr`", for an
arbitrary combiner. -/
def Transition.combinations {T : Type} (combine : T → T → T) (left right : List T) :
    List T :=
  left.flatMap (fun l => right.map (fun r => combine l r))

/-- `Composition::next_transitions` (`TransitionSystems/composition.rs:51-76`),
parameterised by the children's transition lists for the requested action and by the
transition combiner: when either child list is empty the two lists are concatenated
(returning the non-empty side unchanged), otherwise all pairwise combinations. -/
def Composition.next_transitions {T : Type} (combine : T → T → T) (left right : List T) :
    List T :=
  if left.isEmpty || right.isEmpty then left ++ right
  else Transition.combinations combine left right

/-- The set gathered under key `k` in `new_groups`: all clocks filed with key `k`
during the enumeration of the current groups (as a duplicate-free list). -/
def keyGroup (updates : List CompiledUpdate) (groups : List (List ClockIndex)) (k : Nat) :
    List ClockIndex :=
  (((groupPairs updates 0 groups).filter (fun p => p.1 == k)).map Prod.snd).dedup

/-- The loop invariant of `find_equivalent_clock_groups` (cf. the comment at
`clock_analysis_graph.rs:101-105`): every group consists of used clocks, is non-empty
and duplicate-free (it is a `HashSet`), and a clock belongs to at most one group. -/
def GroupsInv (used : List ClockIndex) (groups : List (List ClockIndex)) : Prop :=
  (∀ G ∈ groups, (∀ c ∈ G, c ∈ used) ∧ G ≠ [] ∧ G.Nodup) ∧
    List.Pairwise (fun G1 G2 => ∀ c, c ∈ G1 → c ∉ G2) groups

/-- Fixture for the clock-equivalence analysis: one edge resetting clocks 1 and 2 to
the same constant, both mentioned by the guard. -/
def c2Graph : ClockAnalysisGraph :=
  ⟨[], [⟨"a", "b", [1, 2], [⟨1, 5⟩, ⟨2, 5⟩], "act"⟩], 3⟩

/-- Fixture for the quotient-clock claims: clocks `x` at index 1 and `q` at index 2,
one initial location, no edges (so both clocks are unused). -/
def c6System : CompiledComponent :=
  ⟨[], [], [⟨"L0", none, LocType.Initial⟩], [("L0", [])],
   some ⟨"L0", none, LocType.Initial⟩, ⟨[], [("x", 1), ("q", 2)]⟩, 3⟩

/-- Fixture location for the update-compaction claim. -/
def c3Location : Location := ⟨"L0", none, LocType.Initial⟩

/-- Fixture for the update-compaction claim: clocks `x`@1 and `y`@2, one edge whose
transition resets clock 2 to 5. -/
def c3Component : CompiledComponent :=
  ⟨[], ["a"], [c3Location],
   [("L0", [("a", ⟨Federation.universe 3, [⟨2, 5⟩], c3Location⟩)])],
   some c3Location, ⟨[], [("x", 1), ("y", 2)]⟩, 3⟩

/-- Scenario S1's component `A`: four declared clocks (indices 1-4, dimension 5), none
mentioned in any guard or invariant; a single location with a self-loop output edge
that resets clock 1. -/
def componentA_loc : Location := ⟨"L0", none, LocType.Initial⟩

/-- Scenario S1's component `A` (see `componentA_loc`). -/
def componentA : CompiledComponent :=
  ⟨[], ["o"], [componentA_loc],
   [("L0", [("o", ⟨Federation.universe 5, [⟨1, 0⟩], componentA_loc⟩)])],
   some componentA_loc, ⟨[], [("x", 1), ("y", 2), ("z", 3), ("w", 4)]⟩, 5⟩

/-- A concrete transition fixture for the composition claim. -/
def c7Transition : Transition :=
  ⟨Federation.universe 2, [], ⟨"T", none, LocType.Normal⟩⟩

/-- A second transition fixture for the composition claim's witness. -/
def c7TransitionL : Transition :=
  ⟨Federation.universe 2, [⟨1, 3⟩], ⟨"S", none, LocType.Normal⟩⟩

theorem getLast?_mem {α : Type} {l : List α} {a : α} (h : l.getLast? = some a) : a ∈ l := by
  induction l with
  | nil => simp at h
  | cons b t ih =>
    cases t with
    | nil => simp [List.getLast?] at h; simp [h]
    | cons c u =>
      rw [List.getLast?_cons_cons] at h
      exact List.mem_cons_of_mem _ (ih h)

theorem contains_iff_mem {α : Type} [DecidableEq α] {l : List α} {a : α} :
    l.contains a = true ↔ a ∈ l := by
  simp [List.contains, List.elem_iff]

/-- C10: with the dimension argument equal to 0, `clock_reduce` returns `Ok(())`
immediately and leaves both transition systems and the dimension unchanged, for every
system implementation, every right-hand operand and every quotient clock. -/
theorem c10_clock_reduce_dim_zero_frame {S : Type} (ops : SystemOps S) (lhs : S)
    (rhs : Option S) (quotient_clock : Option ClockIndex) :
    clock_reduce ops lhs rhs 0 quotient_clock = some ((lhs, rhs), 0) := rfl

/-- C9: `get_initial_state` returns `None` exactly when there is no initial location or
the zone `init(D)` intersected with the composed initial invariant is empty, and
otherwise returns the initial location paired with exactly that intersected zone. -/
theorem c9_get_initial_state_characterisation {L Z : Type} (initial_location : Option L)
    (dim : Nat) (init : Nat → Z) (apply_invariants : L → Z → Z) (is_empty : Z → Bool)
    (l : L) (z : Z) :
    (get_initial_state initial_location dim init apply_invariants is_empty = none ↔
      initial_location = none ∨
        ∃ l0, initial_location = some l0 ∧ is_empty (apply_invariants l0 (init dim)) = true)
    ∧ (get_initial_state initial_location dim init apply_invariants is_empty = some (l, z) ↔
      initial_location = some l ∧ z = apply_invariants l (init dim) ∧
        is_empty (apply_invariants l (init dim)) = false) := by
  cases initial_location with
  | none => simp [get_initial_state]
  | some l0 =>
    by_cases h : is_empty (apply_invariants l0 (init dim)) = true
    · simp only [get_initial_state, h, if_true]
      refine ⟨by simp [h], ?_⟩
      simp only [Option.some.injEq, Prod.mk.injEq] at *
      constructor
      · intro hn; cases hn
      · rintro ⟨h1, _, h3⟩
        cases h1
        rw [h] at h3
        cases h3
    · rw [Bool.not_eq_true] at h
      constructor
      · simp [get_initial_state, h]
      · simp only [get_initial_state, h, Bool.false_eq_true, if_false, Option.some_inj,
          Option.some.injEq, Prod.mk.injEq]
        constructor
        · rintro ⟨h1, h2⟩
          subst h1; exact ⟨rfl, h2.symm, h⟩
        · rintro ⟨h1, h2, _⟩
          cases h1; exact ⟨rfl, h2.symm⟩

/-- C7 (amended): the old-draft composition successor rule yields exactly the pairwise
combinations when both children contribute at least one transition; when either child
contributes none, the result is the concatenation of the two lists — i.e. the other
child's transitions unchanged — rather than the empty list. -/
theorem c7_composition_next_transitions {T : Type} (combine : T → T → T)
    (left right : List T) (hl : left ≠ []) (hr : right ≠ []) :
    Composition.next_transitions combine left right =
        Transition.combinations combine left right
      ∧ Composition.next_transitions combine ([] : List T) right = right
      ∧ Composition.next_transitions combine left ([] : List T) = left := by
  refine ⟨?_, rfl, ?_⟩
  · cases left with
    | nil => exact absurd rfl hl
    | cons a t =>
      cases right with
      | nil => exact absurd rfl hr
      | cons b u => rfl
  · cases left with
    | nil => exact absurd rfl hl
    | cons a t => simp [Composition.next_transitions]

/-- C7 counterexample: a shared action where the left child has no transition and the
right child has one does not produce the empty set (nor the pairwise combinations,
which are empty): the right child's transition alone is returned. -/
theorem c7_counterexample :
    Composition.next_transitions (fun a _ => a) ([] : List Transition) [c7Transition] =
        [c7Transition]
      ∧ ([c7Transition] : List Transition) ≠ []
      ∧ Transition.combinations (fun a _ => a) ([] : List Transition) [c7Transition] = [] :=
  ⟨rfl, List.cons_ne_nil _ _, rfl⟩

/-- C7 witness: the amended statement at concrete one-element transition lists. -/
theorem c7_witness :
    Composition.next_transitions (fun a _ => a) [c7TransitionL] [c7Transition] =
        Transition.combinations (fun a _ => a) [c7TransitionL] [c7Transition]
      ∧ Composition.next_transitions (fun a _ => a) ([] : List Transition) [c7Transition] =
        [c7Transition]
      ∧ Composition.next_transitions (fun a _ => a) [c7TransitionL] ([] : List Transition) =
        [c7TransitionL] :=
  c7_composition_next_transitions (fun a _ => a) [c7TransitionL] [c7Transition]
    (List.cons_ne_nil _ _) (List.cons_ne_nil _ _)

/-- C5: an instruction survives `filter_redundant_clocks` for the left side exactly
when it was found on both sides, its clock lies in the left operand's range
(`≤ split_index`), and it does not touch the quotient clock; symmetrically for the
right side with indices strictly above `split_index`.  In particular no instruction is
ever applied to the side that does not own its clock. -/
theorem c5_filter_redundant_clocks_characterisation
    (lhs rhs : List ClockReductionInstruction) (quotient_clock : Option ClockIndex)
    (split_index : ClockIndex) (ins : ClockReductionInstruction) :
    (ins ∈ (filter_redundant_clocks lhs rhs quotient_clock split_index).1 ↔
      ins ∈ lhs ∧ ins ∈ rhs ∧ ins.get_clock_index ≤ split_index ∧
        ins.get_clock_index ≠ quotient_clock.getD 0)
    ∧ (ins ∈ (filter_redundant_clocks lhs rhs quotient_clock split_index).2 ↔
      ins ∈ rhs ∧ ins ∈ lhs ∧ split_index < ins.get_clock_index ∧
        ins.get_clock_index ≠ quotient_clock.getD 0) := by
  simp only [filter_redundant_clocks, List.mem_filter, contains_iff_mem, bne_iff_ne,
    decide_eq_true_eq]
  constructor <;> constructor <;> (intro h) <;> tauto

/-- C6 (amended): every instruction that survives the quotient filters — the `retain`
of `clock_reduce_single` and the third filter of `filter_redundant_clocks` — has a
`clock_index` different from the quotient clock, so the quotient clock is never
removed and never replaced (merged away).  (Its numeric index can still shift when a
lower-indexed clock is removed, and other clocks can still be merged *into* it; see
the counterexample.) -/
theorem c6_retained_instruction_not_quotient {S : Type} (ops : SystemOps S) (sys : S)
    (q : ClockIndex) (l : List ClockReductionInstruction)
    (ins ins2 : ClockReductionInstruction) (lhs rhs : List ClockReductionInstruction)
    (split_index : ClockIndex)
    (hret : clockReduceSingleRetained ops sys (some q) = some l) (hins : ins ∈ l)
    (hins2 : ins2 ∈ (filter_redundant_clocks lhs rhs (some q) split_index).1 ++
        (filter_redundant_clocks lhs rhs (some q) split_index).2) :
    ins.get_clock_index ≠ q ∧ ins2.get_clock_index ≠ q := by
  constructor
  · unfold clockReduceSingleRetained at hret
    cases hfind : ops.find_redundant_clocks sys with
    | none => rw [hfind] at hret; cases hret
    | some found =>
      rw [hfind] at hret
      simp only [Option.map_some', Option.some.injEq] at hret
      subst hret
      have h := (List.mem_filter.mp hins).2
      simpa [bne_iff_ne] using h
  · rcases List.mem_append.mp hins2 with h | h
    · have h2 := (List.mem_filter.mp h).2
      simpa [bne_iff_ne] using h2
    · have h2 := (List.mem_filter.mp h).2
      simpa [bne_iff_ne] using h2

/-- C6 counterexample: on `c6System` (clock `x` at index 1, quotient clock `q` at
index 2, both unused), `clock_reduce_single` with quotient clock 2 removes clock 1,
which compacts `q`'s declaration index from 2 down to 1: the quotient clock's index is
not unchanged by the pass, contrary to the claim. -/
theorem c6_counterexample :
    (clock_reduce_single ccOps c6System 3 (some 2)).map
        (fun p => p.1.declarations.clocks.lookup "q") = some (some 1)
      ∧ (1 : ClockIndex) ≠ 2 := by
  constructor
  · rfl
  · decide

/-- C6 witness: the amended statement applied at `c6System` (where the retained list
is `[RemoveClock 1]`) and at concrete instruction lists for the two-operand filter. -/
theorem c6_witness :
    (ClockReductionInstruction.RemoveClock 1).get_clock_index ≠ 2 ∧
      (ClockReductionInstruction.RemoveClock 3).get_clock_index ≠ 2 :=
  c6_retained_instruction_not_quotient ccOps c6System 2
    [ClockReductionInstruction.RemoveClock 1] (ClockReductionInstruction.RemoveClock 1)
    (ClockReductionInstruction.RemoveClock 3) [ClockReductionInstruction.RemoveClock 3]
    [ClockReductionInstruction.RemoveClock 3] 5 (by rfl) (by decide) (by decide)

/-- C3: `CompiledComponent::remove_clocks` drops the updates of removed clocks but
does not re-index the surviving updates: on `c3Component`, removing clock 1 leaves the
update of clock 2 at index 2, while the compaction applied to declarations (and
demanded by the claim) maps index 2 to 2 − 1 = 1. -/
theorem c3_surviving_update_not_shifted :
    ((c3Component.remove_clocks [1]).location_edges.map
        (fun le => le.2.map (fun at_ => at_.2.updates))) = [[[⟨2, 5⟩]]]
      ∧ (2 : ClockIndex) - partition_point [1] (fun clock => clock < 2) = 1
      ∧ ((c3Component.remove_clocks [1]).declarations.clocks.lookup "y" = some 1) := by
  refine ⟨rfl, rfl, rfl⟩

/-- C8 (scenario S1): on component `A` — four declared clocks, none in any guard or
invariant — single-operand clock reduction yields dimension 1 (both as the rewritten
system's dimension and as the returned dimension), and the consistency check on the
reduced system succeeds. -/
theorem c8_scenario_s1 :
    (clock_reduce ccOps componentA none 5 none).map
        (fun p => (p.1.1.dim, p.1.1.is_least_consistent, p.2)) = some (1, true, 1) := by
  rfl

theorem takeWhile_lt_length_eq_countP (x : ClockIndex) :
    ∀ (rem : List ClockIndex), List.Sorted (· < ·) rem →
      (rem.takeWhile (fun clock => decide (clock < x))).length =
        rem.countP (fun clock => decide (clock < x)) := by
  intro rem hs
  induction rem with
  | nil => rfl
  | cons a t ih =>
    have hrest : List.Sorted (· < ·) t := hs.of_cons
    have hlt : ∀ b ∈ t, a < b := fun b hb => (List.pairwise_cons.mp hs).1 b hb
    by_cases h : a < x
    · simp [List.takeWhile_cons, List.countP_cons, h, ih hrest]
    · have hnone : t.countP (fun clock => decide (clock < x)) = 0 := by
        rw [List.countP_eq_zero]
        intro b hb
        simp only [decide_eq_true_eq, not_lt]
        exact le_of_lt (lt_of_le_of_lt (le_of_not_lt h) (hlt b hb))
      simp [List.takeWhile_cons, List.countP_cons, h, hnone]

/-- C4: for a sorted removal list, `Declarations::remove_clocks` keeps exactly the
bindings whose index survives, deleting every name mapped to a removed index, and
maps each surviving name to its old index minus the number of removed indices below
it. -/
theorem c4_declarations_remove_clocks (d : Declarations) (rem : List ClockIndex)
    (name : String) (v : ClockIndex) (hs : List.Sorted (· < ·) rem) :
    ((name, v) ∈ (d.remove_clocks rem).clocks ↔
      ∃ old, (name, old) ∈ d.clocks ∧ old ∉ rem ∧
        v = old - rem.countP (fun clock => decide (clock < old))) := by
  simp only [Declarations.remove_clocks, List.mem_map, List.mem_filter,
    Bool.not_eq_true', Prod.mk.injEq]
  constructor
  · rintro ⟨⟨n0, old⟩, ⟨hmem, hnotin⟩, hn, hv⟩
    refine ⟨old, ?_, ?_, ?_⟩
    · cases hn; exact hmem
    · intro habs
      have hc : rem.contains old = true := contains_iff_mem.mpr habs
      rw [hc] at hnotin
      exact Bool.noConfusion hnotin
    · rw [← hv, partition_point, takeWhile_lt_length_eq_countP old rem hs]
  · rintro ⟨old, hmem, hnotin, hv⟩
    refine ⟨(name, old), ⟨hmem, ?_⟩, rfl, ?_⟩
    · rw [Bool.eq_false_iff]
      intro habs
      exact hnotin (contains_iff_mem.mp habs)
    · rw [partition_point, takeWhile_lt_length_eq_countP old rem hs, hv]

/-- C4 witness: the characterisation at a concrete declarations table, clock `y` at old
index 3, removal list `[1, 2]`, new index 1. -/
theorem c4_witness :
    ("y", 1) ∈ (Declarations.remove_clocks ⟨[], [("x", 1), ("y", 3)]⟩ [1, 2]).clocks ↔
      ∃ old, ("y", old) ∈ (Declarations.mk [] [("x", 1), ("y", 3)]).clocks ∧ old ∉ [1, 2] ∧
        1 = old - List.countP (fun clock => decide (clock < old)) [1, 2] :=
  c4_declarations_remove_clocks ⟨[], [("x", 1), ("y", 3)]⟩ [1, 2] "y" 1 (by decide)

theorem range_bound_iff {c d : Nat} (hge : 1 ≤ c) : c < 1 + (d - 1) ↔ c < d := by omega

/-- C1: `find_clock_redundancies` marks a clock `c` with `1 ≤ c < dim` for removal
exactly when no node invariant and no edge guard of the analysis graph (i.e. no
reachable location and no reachable transition, which is what `find_edges_and_nodes`
collects) mentions `c` among its minimal constraints; the removal list is sorted
strictly ascending and never contains the reference clock 0. -/
theorem c1_unused_clock_removal_characterisation (g : ClockAnalysisGraph) :
    (∀ c : ClockIndex,
      c ∈ g.find_clock_redundancies.1 ↔
        1 ≤ c ∧ c < g.dim ∧ (∀ n ∈ g.nodes, c ∉ n.invariant_dependencies) ∧
          ∀ e ∈ g.edges, c ∉ e.guard_dependencies)
    ∧ List.Sorted (· < ·) g.find_clock_redundancies.1
    ∧ 0 ∉ g.find_clock_redundancies.1 := by
  have h1 : g.find_clock_redundancies.1 =
      List.insertionSort (· ≤ ·)
        ((List.range' 1 (g.dim - 1)).filter
          (fun clock => !g.find_used_clocks.contains clock)) := rfl
  have hsortlt : List.Sorted (· < ·)
      ((List.range' 1 (g.dim - 1)).filter
        (fun clock => !g.find_used_clocks.contains clock)) :=
    List.Pairwise.filter _ (List.pairwise_lt_range' 1 (g.dim - 1))
  have hsortle : List.Sorted (· ≤ ·)
      ((List.range' 1 (g.dim - 1)).filter
        (fun clock => !g.find_used_clocks.contains clock)) :=
    hsortlt.imp le_of_lt
  have heq := List.Sorted.insertionSort_eq hsortle
  have hmem : ∀ c : ClockIndex, c ∈ g.find_clock_redundancies.1 ↔
      (1 ≤ c ∧ c < 1 + (g.dim - 1)) ∧ c ∉ g.find_used_clocks := by
    intro c
    rw [h1, heq, List.mem_filter, List.mem_range'_1]
    constructor
    · rintro ⟨hr, hb⟩
      refine ⟨hr, fun habs => ?_⟩
      rw [Bool.not_eq_true', Bool.eq_false_iff] at hb
      exact hb (contains_iff_mem.mpr habs)
    · rintro ⟨hr, hb⟩
      refine ⟨hr, ?_⟩
      rw [Bool.not_eq_true', Bool.eq_false_iff]
      intro habs
      exact hb (contains_iff_mem.mp habs)
  have hused : ∀ c : ClockIndex, 1 ≤ c →
      (c ∉ g.find_used_clocks ↔
        ((∀ n ∈ g.nodes, c ∉ n.invariant_dependencies) ∧
          ∀ e ∈ g.edges, c ∉ e.guard_dependencies)) := by
    intro c hc
    unfold ClockAnalysisGraph.find_used_clocks
    simp only [List.mem_filter, List.mem_dedup, List.mem_append, List.mem_flatMap,
      bne_iff_ne]
    have hne : c ≠ 0 := Nat.one_le_iff_ne_zero.mp hc
    constructor
    · intro hnot
      constructor
      · intro n hn habs
        exact hnot ⟨Or.inr ⟨n, hn, habs⟩, hne⟩
      · intro e he habs
        exact hnot ⟨Or.inl ⟨e, he, habs⟩, hne⟩
    · rintro ⟨hn, he⟩ ⟨hor, -⟩
      rcases hor with ⟨e, hmem', habs⟩ | ⟨n, hmem', habs⟩
      · exact he e hmem' habs
      · exact hn n hmem' habs
  refine ⟨fun c => ?_, ?_, ?_⟩
  · rw [hmem c]
    constructor
    · rintro ⟨⟨hge, hlt⟩, hnot⟩
      have hmen := (hused c hge).mp hnot
      exact ⟨hge, (range_bound_iff hge).mp hlt, hmen.1, hmen.2⟩
    · rintro ⟨hge, hlt, hn, he⟩
      exact ⟨⟨hge, (range_bound_iff hge).mpr hlt⟩, (hused c hge).mpr ⟨hn, he⟩⟩
  · rw [h1, heq]
    exact hsortlt
  · intro habs
    exact Nat.not_succ_le_zero 0 ((hmem 0).mp habs).1.1

theorem u32_of_i32_lt (v : Int) : u32_of_i32 v < 2 ^ 32 := by
  unfold u32_of_i32
  have h1 : 0 ≤ v % (2 : Int) ^ 32 := Int.emod_nonneg v (by norm_num)
  have h2 : v % (2 : Int) ^ 32 < (2 : Int) ^ 32 := Int.emod_lt_of_pos v (by norm_num)
  have h3 : ((2 : Int) ^ 32) = 4294967296 := by norm_num
  rw [h3] at h1 h2
  omega

theorem u32_of_i32_inj {v1 v2 : Int} (h11 : -(2 : Int) ^ 31 ≤ v1) (h12 : v1 < 2 ^ 31)
    (h21 : -(2 : Int) ^ 31 ≤ v2) (h22 : v2 < 2 ^ 31)
    (h : u32_of_i32 v1 = u32_of_i32 v2) : v1 = v2 := by
  unfold u32_of_i32 at h
  have e32 : ((2 : Int) ^ 32) = 4294967296 := by norm_num
  have e31 : ((2 : Int) ^ 31) = 2147483648 := by norm_num
  rw [e32] at h
  rw [e31] at h11 h12 h21 h22
  omega

theorem lastResetU32_eq_map (updates : List CompiledUpdate) (c : ClockIndex) :
    lastResetU32 updates c = (lastReset updates c).map u32_of_i32 := by
  unfold lastResetU32 lastReset
  cases (updates.filter (fun u => u.clock_index == c)).getLast? <;> rfl

theorem lastReset_mem {updates : List CompiledUpdate} {c : ClockIndex} {v : Int}
    (h : lastReset updates c = some v) : ∃ u ∈ updates, u.value = v := by
  unfold lastReset at h
  cases hl : (updates.filter (fun u => u.clock_index == c)).getLast? with
  | none => rw [hl] at h; cases h
  | some u =>
    rw [hl] at h
    simp only [Option.map_some', Option.some.injEq] at h
    exact ⟨u, List.mem_of_mem_filter (getLast?_mem hl), h⟩

theorem lastReset_map_inj {updates : List CompiledUpdate} {c1 c2 : ClockIndex}
    (hv : ∀ u ∈ updates, -(2 : Int) ^ 31 ≤ u.value ∧ u.value < 2 ^ 31)
    (h : lastResetU32 updates c1 = lastResetU32 updates c2) :
    lastReset updates c1 = lastReset updates c2 := by
  rw [lastResetU32_eq_map, lastResetU32_eq_map] at h
  cases h1 : lastReset updates c1 with
  | none => cases h2 : lastReset updates c2 with
    | none => rfl
    | some v2 => rw [h1, h2] at h; cases h
  | some v1 =>
    cases h2 : lastReset updates c2 with
    | none => rw [h1, h2] at h; cases h
    | some v2 =>
      rw [h1, h2] at h
      simp only [Option.map_some', Option.some.injEq] at h
      obtain ⟨u1, hu1, he1⟩ := lastReset_mem h1
      obtain ⟨u2, hu2, he2⟩ := lastReset_mem h2
      have b1 := hv u1 hu1
      have b2 := hv u2 hu2
      rw [he1] at b1
      rw [he2] at b2
      rw [u32_of_i32_inj b1.1 b1.2 b2.1 b2.2 h]

theorem lastResetU32_lt {updates : List CompiledUpdate} {c : ClockIndex} {gid : Nat}
    (h : lastResetU32 updates c = some gid) : gid < 2 ^ 32 := by
  unfold lastResetU32 at h
  cases hl : (updates.filter (fun u => u.clock_index == c)).getLast? with
  | none => rw [hl] at h; cases h
  | some u =>
    rw [hl] at h
    simp only [Option.map_some', Option.some.injEq] at h
    rw [← h]
    exact u32_of_i32_lt u.value

theorem clockKey_congr {updates : List CompiledUpdate} {c1 c2 : ClockIndex} (i : Nat)
    (h : lastResetU32 updates c1 = lastResetU32 updates c2) :
    clockKey updates i c1 = clockKey updates i c2 := by
  unfold clockKey
  rw [h]

theorem clockKey_inj {updates : List CompiledUpdate} {c1 c2 : ClockIndex} {i1 i2 : Nat}
    (hi1 : i1 < u32MaxUsize) (hi2 : i2 < u32MaxUsize)
    (h : clockKey updates i1 c1 = clockKey updates i2 c2) :
    i1 = i2 ∧ lastResetU32 updates c1 = lastResetU32 updates c2 := by
  have eM : u32MaxUsize = 4294967295 := by norm_num [u32MaxUsize]
  rw [eM] at hi1 hi2
  cases h1 : lastResetU32 updates c1 with
  | none =>
    cases h2 : lastResetU32 updates c2 with
    | none =>
      simp only [clockKey, h1, h2] at h
      exact ⟨h, rfl⟩
    | some g2 =>
      have hg2 := lastResetU32_lt h2
      simp only [clockKey, h1, h2, eM] at h
      omega
  | some g1 =>
    have hg1 := lastResetU32_lt h1
    cases h2 : lastResetU32 updates c2 with
    | none =>
      simp only [clockKey, h1, h2, eM] at h
      omega
    | some g2 =>
      have hg2 := lastResetU32_lt h2
      simp only [clockKey, h1, h2, eM] at h
      have he : i1 = i2 ∧ g1 = g2 := by
        have hp : (2 : Nat) ^ 32 = 4294967296 := by norm_num
        rw [hp] at hg1 hg2
        omega
      exact ⟨he.1, by rw [he.2]⟩

theorem mem_groupPairs {updates : List CompiledUpdate} {k : Nat} {c : ClockIndex} :
    ∀ (start : Nat) (groups : List (List ClockIndex)),
      ((k, c) ∈ groupPairs updates start groups ↔
        ∃ j G, groups.get? j = some G ∧ c ∈ G ∧ k = clockKey updates (start + j) c) := by
  intro start groups
  induction groups generalizing start with
  | nil => simp [groupPairs]
  | cons G rest ih =>
    simp only [groupPairs, List.mem_append, List.mem_map, ih (start + 1)]
    constructor
    · rintro (⟨c0, hc0, heq⟩ | ⟨j, G', hget, hcG, hk⟩)
      · obtain ⟨hk, hc⟩ := Prod.mk.injEq .. ▸ heq
        refine ⟨0, G, rfl, ?_, ?_⟩
        · rw [← hc]; exact hc0
        · rw [← hk, ← hc, Nat.add_zero]
      · exact ⟨j + 1, G', hget, hcG, by rw [hk]; ring_nf⟩
    · rintro ⟨j, G', hget, hcG, hk⟩
      cases j with
      | zero =>
        left
        simp only [List.get?_cons_zero, Option.some.injEq] at hget
        subst hget
        exact ⟨c, hcG, by rw [hk, Nat.add_zero]⟩
      | succ j' =>
        right
        simp only [List.get?_cons_succ] at hget
        exact ⟨j', G', hget, hcG, by rw [hk]; ring_nf⟩

theorem mem_keyGroup {updates : List CompiledUpdate} {groups : List (List ClockIndex)}
    {k : Nat} {c : ClockIndex} :
    c ∈ keyGroup updates groups k ↔ (k, c) ∈ groupPairs updates 0 groups := by
  unfold keyGroup
  rw [List.mem_dedup]
  constructor
  · intro h
    obtain ⟨p, hp, hpc⟩ := List.mem_map.mp h
    have hk := (List.mem_filter.mp hp).2
    have hpk : p.1 = k := by simpa using hk
    have : p = (k, c) := by
      cases p
      simp only at hpk hpc
      rw [hpk, hpc]
    rw [← this]
    exact (List.mem_filter.mp hp).1
  · intro h
    exact List.mem_map.mpr ⟨(k, c), List.mem_filter.mpr ⟨h, by simp⟩, rfl⟩

theorem refineStep_eq (updates : List CompiledUpdate) (groups : List (List ClockIndex)) :
    refineStep updates groups =
      (((groupPairs updates 0 groups).map Prod.fst).dedup.map
          (fun k => keyGroup updates groups k)).filter
        (fun group => decide (1 < group.length)) := rfl

theorem mem_refineStep {updates : List CompiledUpdate} {groups : List (List ClockIndex)}
    {S : List ClockIndex} :
    S ∈ refineStep updates groups ↔
      ∃ k, k ∈ ((groupPairs updates 0 groups).map Prod.fst).dedup ∧
        S = keyGroup updates groups k ∧ 1 < S.length := by
  rw [refineStep_eq, List.mem_filter]
  simp only [List.mem_map, decide_eq_true_eq]
  constructor
  · rintro ⟨⟨k, hk, hS⟩, hlen⟩
    exact ⟨k, hk, hS.symm, hlen⟩
  · rintro ⟨k, hk, hS, hlen⟩
    exact ⟨⟨k, hk, hS.symm⟩, hlen⟩

theorem two_mem_one_lt_length {α : Type} {S : List α} {c1 c2 : α} (h1 : c1 ∈ S)
    (h2 : c2 ∈ S) (hne : c1 ≠ c2) : 1 < S.length := by
  cases S with
  | nil => cases h1
  | cons a t =>
    cases t with
    | nil =>
      rw [List.mem_singleton] at h1 h2
      exact absurd (h1.trans h2.symm) hne
    | cons b u => simp [Nat.lt_of_sub_eq_succ]

theorem disjoint_index_unique {used : List ClockIndex} {groups : List (List ClockIndex)}
    (hInv : GroupsInv used groups) {i j : Nat} {G1 G2 : List ClockIndex}
    {c : ClockIndex} (hg1 : groups.get? i = some G1) (hg2 : groups.get? j = some G2)
    (hc1 : c ∈ G1) (hc2 : c ∈ G2) : i = j := by
  obtain ⟨hi, hgi⟩ := List.get?_eq_some.mp hg1
  obtain ⟨hj, hgj⟩ := List.get?_eq_some.mp hg2
  rcases Nat.lt_trichotomy i j with h | h | h
  · have := List.pairwise_iff_get.mp hInv.2 ⟨i, hi⟩ ⟨j, hj⟩ h
    rw [hgi, hgj] at this
    exact absurd hc2 (this c hc1)
  · exact h
  · have := List.pairwise_iff_get.mp hInv.2 ⟨j, hj⟩ ⟨i, hi⟩ h
    rw [hgi, hgj] at this
    exact absurd hc1 (this c hc2)

theorem groups_length_le :
    ∀ (groups : List (List ClockIndex)) (used : List ClockIndex),
      (∀ G ∈ groups, (∀ c ∈ G, c ∈ used) ∧ G ≠ [] ∧ G.Nodup) →
      List.Pairwise (fun G1 G2 => ∀ c, c ∈ G1 → c ∉ G2) groups →
      used.Nodup → groups.length ≤ used.length := by
  intro groups
  induction groups with
  | nil => intro used _ _ _; simp
  | cons G rest ih =>
    intro used hall hpw hnd
    have hG := hall G (List.mem_cons_self _ _)
    have hdisj : ∀ H ∈ rest, ∀ c, c ∈ G → c ∉ H := (List.pairwise_cons.mp hpw).1
    have hrest_pw := (List.pairwise_cons.mp hpw).2
    have hrest : ∀ H ∈ rest,
        (∀ c ∈ H, c ∈ used.filter (fun c => !G.contains c)) ∧ H ≠ [] ∧ H.Nodup := by
      intro H hH
      have hH' := hall H (List.mem_cons_of_mem _ hH)
      refine ⟨fun c hc => ?_, hH'.2.1, hH'.2.2⟩
      rw [List.mem_filter]
      refine ⟨hH'.1 c hc, ?_⟩
      rw [Bool.not_eq_true', Bool.eq_false_iff]
      intro habs
      exact hdisj H hH c (contains_iff_mem.mp habs) hc
    have hlt : (used.filter (fun c => !G.contains c)).length < used.length := by
      obtain ⟨c0, hc0⟩ : ∃ c0, c0 ∈ G := by
        cases hGe : G with
        | nil => exact absurd hGe hG.2.1
        | cons a t => exact ⟨a, List.mem_cons_self _ _⟩
      have hc0u : c0 ∈ used := hG.1 c0 hc0
      exact List.length_filter_lt_length_iff_exists.mpr
        ⟨c0, hc0u, by rw [contains_iff_mem.mpr hc0]; decide⟩
    have hr := ih (used.filter (fun c => !G.contains c)) hrest hrest_pw (hnd.filter _)
    simp only [List.length_cons]
    omega

theorem refineStep_forward {updates : List CompiledUpdate}
    {groups : List (List ClockIndex)} {S : List ClockIndex} {c1 c2 : ClockIndex}
    (hLen : groups.length ≤ u32MaxUsize)
    (hS : S ∈ refineStep updates groups) (h1 : c1 ∈ S) (h2 : c2 ∈ S) :
    ∃ G, G ∈ groups ∧ c1 ∈ G ∧ c2 ∈ G ∧
      lastResetU32 updates c1 = lastResetU32 updates c2 := by
  obtain ⟨k, -, hSeq, -⟩ := mem_refineStep.mp hS
  rw [hSeq] at h1 h2
  obtain ⟨j1, G1, hg1, hc1, hk1⟩ := (mem_groupPairs 0 groups).mp (mem_keyGroup.mp h1)
  obtain ⟨j2, G2, hg2, hc2, hk2⟩ := (mem_groupPairs 0 groups).mp (mem_keyGroup.mp h2)
  rw [Nat.zero_add] at hk1 hk2
  have hj1 : j1 < groups.length := (List.get?_eq_some.mp hg1).1
  have hj2 : j2 < groups.length := (List.get?_eq_some.mp hg2).1
  have hkey : clockKey updates j1 c1 = clockKey updates j2 c2 := by rw [← hk1, ← hk2]
  obtain ⟨hjeq, hfate⟩ :=
    clockKey_inj (Nat.lt_of_lt_of_le hj1 hLen) (Nat.lt_of_lt_of_le hj2 hLen) hkey
  subst hjeq
  rw [hg1] at hg2
  injection hg2 with hGG
  subst hGG
  exact ⟨G1, List.get?_mem hg1, hc1, hc2, hfate⟩

theorem refineStep_backward {updates : List CompiledUpdate}
    {groups : List (List ClockIndex)} {G : List ClockIndex} {c1 c2 : ClockIndex}
    (hG : G ∈ groups) (hc1 : c1 ∈ G) (hc2 : c2 ∈ G) (hne : c1 ≠ c2)
    (hfate : lastResetU32 updates c1 = lastResetU32 updates c2) :
    ∃ S, S ∈ refineStep updates groups ∧ c1 ∈ S ∧ c2 ∈ S := by
  obtain ⟨j, hj⟩ := List.mem_iff_get?.mp hG
  have hp1 : (clockKey updates j c1, c1) ∈ groupPairs updates 0 groups :=
    (mem_groupPairs 0 groups).mpr ⟨j, G, hj, hc1, by rw [Nat.zero_add]⟩
  have hp2 : (clockKey updates j c1, c2) ∈ groupPairs updates 0 groups :=
    (mem_groupPairs 0 groups).mpr
      ⟨j, G, hj, hc2, by rw [Nat.zero_add, clockKey_congr j hfate]⟩
  have hm1 : c1 ∈ keyGroup updates groups (clockKey updates j c1) := mem_keyGroup.mpr hp1
  have hm2 : c2 ∈ keyGroup updates groups (clockKey updates j c1) := mem_keyGroup.mpr hp2
  have hbig := two_mem_one_lt_length hm1 hm2 hne
  refine ⟨keyGroup updates groups (clockKey updates j c1), ?_, hm1, hm2⟩
  exact mem_refineStep.mpr
    ⟨clockKey updates j c1,
     List.mem_dedup.mpr (List.mem_map.mpr ⟨(clockKey updates j c1, c1), hp1, rfl⟩),
     rfl, hbig⟩

theorem keyGroup_subset {used : List ClockIndex} {updates : List CompiledUpdate}
    {groups : List (List ClockIndex)} {k : Nat} {c : ClockIndex}
    (hInv : GroupsInv used groups) (hc : c ∈ keyGroup updates groups k) : c ∈ used := by
  obtain ⟨j, G, hg, hcG, -⟩ := (mem_groupPairs 0 groups).mp (mem_keyGroup.mp hc)
  exact (hInv.1 G (List.get?_mem hg)).1 c hcG

theorem keyGroup_disjoint {used : List ClockIndex} {updates : List CompiledUpdate}
    {groups : List (List ClockIndex)} {k1 k2 : Nat}
    (hInv : GroupsInv used groups) (hk : k1 ≠ k2) :
    ∀ c, c ∈ keyGroup updates groups k1 → c ∉ keyGroup updates groups k2 := by
  intro c h1 h2
  obtain ⟨j1, G1, hg1, hc1, hke1⟩ := (mem_groupPairs 0 groups).mp (mem_keyGroup.mp h1)
  obtain ⟨j2, G2, hg2, hc2, hke2⟩ := (mem_groupPairs 0 groups).mp (mem_keyGroup.mp h2)
  rw [Nat.zero_add] at hke1 hke2
  have hjeq : j1 = j2 := disjoint_index_unique hInv hg1 hg2 hc1 hc2
  subst hjeq
  exact hk (by rw [hke1, hke2])

theorem refineStep_inv {used : List ClockIndex} {updates : List CompiledUpdate}
    {groups : List (List ClockIndex)} (hInv : GroupsInv used groups) :
    GroupsInv used (refineStep updates groups) := by
  constructor
  · intro S hS
    obtain ⟨k, -, hSeq, hlen⟩ := mem_refineStep.mp hS
    refine ⟨fun c hc => keyGroup_subset hInv (hSeq ▸ hc), ?_, ?_⟩
    · intro habs
      rw [habs] at hlen
      simp at hlen
    · rw [hSeq]
      exact List.nodup_dedup _
  · rw [refineStep_eq]
    apply List.Pairwise.filter
    rw [List.pairwise_map]
    exact (List.nodup_dedup _).imp (fun hk => keyGroup_disjoint hInv hk)

theorem foldl_refine_iff {used : List ClockIndex} (hN : used.Nodup)
    (hUL : used.length ≤ u32MaxUsize) {c1 c2 : ClockIndex} (hne : c1 ≠ c2) :
    ∀ (edges : List ClockAnalysisEdge) (groups : List (List ClockIndex)),
      GroupsInv used groups →
      ((∃ S, S ∈ edges.foldl (fun acc e => refineStep e.updates acc) groups ∧
          c1 ∈ S ∧ c2 ∈ S) ↔
        (∃ G, G ∈ groups ∧ c1 ∈ G ∧ c2 ∈ G) ∧
          ∀ e ∈ edges, lastResetU32 e.updates c1 = lastResetU32 e.updates c2) := by
  intro edges
  induction edges with
  | nil => intro groups _; simp
  | cons e rest ih =>
    intro groups hInv
    rw [List.foldl_cons, ih (refineStep e.updates groups) (refineStep_inv hInv)]
    have hLen : groups.length ≤ u32MaxUsize :=
      le_trans (groups_length_le groups used hInv.1 hInv.2 hN) hUL
    constructor
    · rintro ⟨⟨S, hS, h1, h2⟩, hrest⟩
      obtain ⟨G, hG, hc1, hc2, hfate⟩ := refineStep_forward hLen hS h1 h2
      refine ⟨⟨G, hG, hc1, hc2⟩, fun e' he' => ?_⟩
      rcases List.mem_cons.mp he' with h | h
      · rw [h]; exact hfate
      · exact hrest e' h
    · rintro ⟨⟨G, hG, hc1, hc2⟩, hall⟩
      have hfate := hall e (List.mem_cons_self _ _)
      obtain ⟨S, hS, h1, h2⟩ := refineStep_backward hG hc1 hc2 hne hfate
      exact ⟨⟨S, hS, h1, h2⟩, fun e' he' => hall e' (List.mem_cons_of_mem _ he')⟩

theorem foldl_refine_all_big :
    ∀ (edges : List ClockAnalysisEdge) (groups : List (List ClockIndex)),
      edges ≠ [] →
      ∀ S ∈ edges.foldl (fun acc e => refineStep e.updates acc) groups, 1 < S.length := by
  intro edges
  induction edges with
  | nil => intro groups h; exact absurd rfl h
  | cons e rest ih =>
    intro groups _ S hS
    rw [List.foldl_cons] at hS
    cases hrest : rest with
    | nil =>
      rw [hrest] at hS
      simp only [List.foldl_nil] at hS
      obtain ⟨-, -, -, hlen⟩ := mem_refineStep.mp hS
      exact hlen
    | cons e' rest' =>
      subst hrest
      exact ih (refineStep e.updates groups) (by simp) S hS

/-- C2: on an analysis graph with at least two used clocks and at least one edge, two
distinct used clocks end up in the same group returned by
`find_equivalent_clock_groups` if and only if on every edge they are either both
absent from the update set or both reset to the same constant (the last update per
clock winning, as with `HashMap::insert`); and every returned group has more than one
member (singletons are dropped).  The two side conditions embed Rust type-level
bounds: update values are `i32`, and the group count (bounded by the used-clock
count) must stay below `u32::MAX` for the `group_offset` key arithmetic not to
collide. -/
theorem c2_equivalent_clock_groups_characterisation (g : ClockAnalysisGraph)
    (c1 c2 : ClockIndex)
    (hval : ∀ e ∈ g.edges, ∀ u ∈ e.updates, -(2 : Int) ^ 31 ≤ u.value ∧ u.value < 2 ^ 31)
    (hcard : g.find_used_clocks.length ≤ u32MaxUsize)
    (h2 : 2 ≤ g.find_used_clocks.length) (hedges : g.edges ≠ [])
    (hc1 : c1 ∈ g.find_used_clocks) (hc2 : c2 ∈ g.find_used_clocks) (hne : c1 ≠ c2) :
    ((∃ S, S ∈ g.find_equivalent_clock_groups g.find_used_clocks ∧ c1 ∈ S ∧ c2 ∈ S) ↔
      ∀ e ∈ g.edges, lastReset e.updates c1 = lastReset e.updates c2)
    ∧ ∀ S ∈ g.find_equivalent_clock_groups g.find_used_clocks, 1 < S.length := by
  have hresult : g.find_equivalent_clock_groups g.find_used_clocks =
      g.edges.foldl (fun acc e => refineStep e.updates acc) [g.find_used_clocks] := by
    unfold ClockAnalysisGraph.find_equivalent_clock_groups
    rw [if_neg]
    rw [not_or]
    exact ⟨not_lt.mpr h2, hedges⟩
  have hNodup : g.find_used_clocks.Nodup := (List.nodup_dedup _).filter _
  have hne_used : g.find_used_clocks ≠ [] := by
    intro habs
    rw [habs] at h2
    simp at h2
  have hInv0 : GroupsInv g.find_used_clocks [g.find_used_clocks] := by
    refine ⟨?_, List.pairwise_singleton _ _⟩
    intro G hG
    rw [List.mem_singleton] at hG
    subst hG
    exact ⟨fun c hc => hc, hne_used, hNodup⟩
  have hiff := foldl_refine_iff hNodup hcard hne g.edges [g.find_used_clocks] hInv0
  constructor
  · rw [hresult, hiff]
    constructor
    · rintro ⟨-, hall⟩ e he
      exact lastReset_map_inj (hval e he) (hall e he)
    · intro hall
      refine ⟨⟨g.find_used_clocks, List.mem_singleton_self _, hc1, hc2⟩, fun e he => ?_⟩
      rw [lastResetU32_eq_map, lastResetU32_eq_map, hall e he]
  · rw [hresult]
    exact foldl_refine_all_big g.edges [g.find_used_clocks] hedges

/-- C2 witness: the characterisation at `c2Graph` (one edge resetting clocks 1 and 2
to the constant 5), where clocks 1 and 2 are indeed grouped together. -/
theorem c2_witness :
    ((∃ S, S ∈ c2Graph.find_equivalent_clock_groups c2Graph.find_used_clocks ∧
        1 ∈ S ∧ 2 ∈ S) ↔
      ∀ e ∈ c2Graph.edges, lastReset e.updates 1 = lastReset e.updates 2)
    ∧ ∀ S ∈ c2Graph.find_equivalent_clock_groups c2Graph.find_used_clocks,
        1 < S.length :=
  c2_equivalent_clock_groups_characterisation c2Graph 1 2 (by decide) (by decide)
    (by decide) (by decide) (by decide) (by decide) (by decide)
